import Mathlib

/-!
Verification of the CodeCounter-rs scan/render core (src/main.rs).

Modelling conventions of the shallow embedding:
* file bytes are `List Nat` (one `Nat` per byte; the newline byte is 10);
* strings stay Lean `String`s (the source is ASCII; Rust's Unicode
  `to_lowercase` is modelled by ASCII `Char.toLower`, which agrees on every
  string appearing in the program's tables);
* filesystem paths are their component lists (`List String`);
* the filesystem seen by the walker is a tree `FSNode`; a `walkdir` entry
  that yields a traversal error is an `errEntry` leaf, and a file whose
  bytes cannot be read carries `none` as content;
* `std::time::Duration` is its total number of milliseconds (`Nat`).
-/

set_option maxHeartbeats 1000000

namespace CodeCounter

/-- The byte value of the newline character b'\n'. -/
def newlineByte : Nat := 10

/-- Translation of `count_lines` (src/main.rs:331-345), acting on the byte
content already read from the file: empty content counts 0; otherwise the
number of newline bytes, plus one when the last byte is not a newline. -/
def count_lines (buf : List Nat) : Nat :=
  if buf = [] then 0
  else
    let count := (buf.filter (fun b => b == newlineByte)).length
    if buf.getLastD 0 ≠ newlineByte then count + 1 else count

/-- The number of newline bytes in a buffer (used to state claims). -/
def newlines (buf : List Nat) : Nat :=
  (buf.filter (fun b => b == newlineByte)).length

/-- Translation of `is_ignored` (src/main.rs:321-329): true iff some path
component equals ".git", "target" or "node_modules" (exact, case-sensitive). -/
def is_ignored (path : List String) : Bool :=
  path.any (fun name => name == ".git" || name == "target" || name == "node_modules")

/-- The `CODE_EXTENSIONS` table (src/main.rs:35-53), verbatim. -/
def CODE_EXTENSIONS : List String := [
  "rs", "py", "pyw", "pyi", "ipynb", "js", "mjs", "cjs", "jsm", "ts", "mts", "cts", "jsx", "tsx",
  "java", "kt", "kts", "groovy", "gradle", "gvy", "gy", "gsh", "scala", "sc", "sbt", "swift",
  "c", "h", "cc", "cxx", "cpp", "hpp", "hh", "hxx", "inl", "ipp", "tpp", "inc", "idl", "d", "di",
  "m", "mm", "go", "rs", "zig", "nim", "nimble", "v", "cr", "hs", "lhs", "ml", "mli", "mll",
  "mly", "re", "rei", "fs", "fsi", "fsx", "fsproj", "cs", "csx", "vb", "vbs", "bas", "pas",
  "rb", "erb", "rake", "gemspec", "php", "phtml", "phpt", "twig", "blade", "pl", "pm", "r", "rmd",
  "jl", "dart", "elm", "clj", "cljs", "cljc", "edn", "ex", "exs", "erl", "hrl", "lua", "nu",
  "sh", "bash", "zsh", "fish", "ps1", "psm1", "psd1", "bat", "cmd", "asm", "s", "sql", "psql",
  "pgsql", "mysql", "sqlite", "sqlite3", "ddl", "dml", "proto", "thrift", "avsc", "avdl",
  "graphql", "gql", "prisma", "tf", "tfvars", "hcl", "cue", "rego",
  "html", "htm", "xhtml", "xml", "xsd", "xsl", "xslt",
  "css", "scss", "sass", "less", "styl", "stylus", "postcss",
  "md", "mdx", "markdown", "rst", "adoc", "asciidoc", "org",
  "tex", "latex", "sty", "cls", "bib",
  "toml", "yaml", "yml", "json", "jsonc", "json5", "ini", "cfg", "conf", "properties", "env",
  "make", "mk", "cmake",
  "vue", "svelte", "astro"]

/-- ASCII lowercasing, modelling Rust's `str::to_lowercase` on the ASCII
strings this program deals with. -/
def lowerStr (s : String) : String := String.mk (s.data.map Char.toLower)

/-- The segment of a character list that follows its last '.', or `none`
when it contains no '.'. Helper for `rustExtension`. -/
def afterLastDot : List Char → Option (List Char)
  | [] => none
  | c :: cs =>
    match afterLastDot cs with
    | some r => some r
    | none => if c = '.' then some cs else none

/-- Rust's `Path::extension` on a file name: `none` for an empty name or a
name whose only '.' is its leading one (dotfiles such as ".git" have no
extension); otherwise the portion after the final '.'. -/
def rustExtension (name : String) : Option String :=
  match name.data with
  | [] => none
  | _ :: rest => (afterLastDot rest).map (fun l => String.mk l)

/-- Translation of `is_code_file` (src/main.rs:347-353): lowercase the
extension and test membership in `CODE_EXTENSIONS`; no extension means not
a code file. -/
def is_code_file (name : String) : Bool :=
  match rustExtension name with
  | none => false
  | some ext => CODE_EXTENSIONS.any (fun allowed => allowed == lowerStr ext)

/-- The loop body of `format_with_commas` (src/main.rs:230-243): walk the
reversed decimal digits, emitting a ',' before every fourth, seventh, ...
digit. `count` is the number of digits already emitted in the current
group. -/
def commaRevAux : List Char → Nat → List Char
  | [], _ => []
  | c :: cs, count =>
    if count == 3 then ',' :: c :: commaRevAux cs 1
    else c :: commaRevAux cs (count + 1)

/-- Translation of `format_with_commas` (src/main.rs:230-243). -/
def format_with_commas (value : Nat) : String :=
  String.mk (commaRevAux (Nat.repr value).data.reverse 0).reverse

/-- The separator `parts.join(" ")` uses. -/
def spaceSep : String := " "

/-- The `parts` vector built by `format_duration` (src/main.rs:245-274):
nonzero day/hour/minute parts, then always the seconds part, then the
milliseconds part when `millis > 0 || parts.is_empty()`. -/
def duration_parts (total_ms : Nat) : List String :=
  let days := total_ms / 86400000
  let hours := (total_ms % 86400000) / 3600000
  let minutes := (total_ms % 3600000) / 60000
  let seconds := (total_ms % 60000) / 1000
  let millis := total_ms % 1000
  let parts : List String :=
    (if days > 0 then [Nat.repr days ++ "d"] else []) ++
    (if hours > 0 then [Nat.repr hours ++ "h"] else []) ++
    (if minutes > 0 then [Nat.repr minutes ++ "m"] else []) ++
    [Nat.repr seconds ++ "s"]
  parts ++ (if millis > 0 || parts.isEmpty then [Nat.repr millis ++ "ms"] else [])

/-- Translation of `format_duration` (src/main.rs:245-274), taking the
span's total milliseconds. -/
def format_duration (total_ms : Nat) : String :=
  String.intercalate spaceSep (duration_parts total_ms)

/-- `DIGIT_HEIGHT` (src/main.rs:19). -/
def DIGIT_HEIGHT : Nat := 5

/-- The `DIGITS` glyph table (src/main.rs:20-31), verbatim. -/
def DIGITS : List (List String) := [
  [" ███ ", "█   █", "█   █", "█   █", " ███ "],
  ["  █  ", " ██  ", "  █  ", "  █  ", " ███ "],
  [" ███ ", "█   █", "   █ ", "  █  ", "█████"],
  [" ███ ", "█   █", "  ██ ", "█   █", " ███ "],
  ["█   █", "█   █", "█████", "    █", "    █"],
  ["█████", "█    ", "████ ", "    █", "████ "],
  [" ███ ", "█    ", "████ ", "█   █", " ███ "],
  ["█████", "    █", "   █ ", "  █  ", "  █  "],
  [" ███ ", "█   █", " ███ ", "█   █", " ███ "],
  [" ███ ", "█   █", " ████", "    █", " ███ "]]

/-- The `COMMA` glyph (src/main.rs:32). -/
def COMMA : List String := ["   ", "   ", "   ", " █ ", "█  "]

/-- `SCALE_X` (src/main.rs:33). -/
def SCALE_X : Nat := 4

/-- `SCALE_Y` (src/main.rs:34). -/
def SCALE_Y : Nat := 2

/-- The block character every glyph is drawn with. -/
def blockChar : Char := '█'

/-- The blank pattern used for characters outside the glyph tables. -/
def blankPattern : String := "     "

/-- The horizontal gap `line.push_str("  ")` inserts between glyphs
(src/main.rs:213). -/
def gapStr : String := "  "

/-- Translation of `expand_scaled_row` (src/main.rs:276-293): every block
cell becomes `SCALE_X` block characters, everything else `SCALE_X` blanks. -/
def expand_scaled_row (row : String) : String :=
  String.mk (row.data.flatMap (fun ch =>
    if ch = blockChar then List.replicate SCALE_X blockChar
    else List.replicate SCALE_X ' '))

/-- The glyph pattern chosen for one character and row (src/main.rs:216-220):
digit glyph row, comma glyph row, or the blank pattern. -/
def patternFor (ch : Char) (row : Nat) : String :=
  if 48 ≤ ch.toNat ∧ ch.toNat ≤ 57 then
    (DIGITS.getD (ch.toNat - 48) []).getD row blankPattern
  else if ch = ',' then COMMA.getD row blankPattern
  else blankPattern

/-- The inner loop of `ascii_art_number` (src/main.rs:209-222) after the
first character: `prev` is the previous character; a gap is pushed exactly
when neither neighbour is ','. -/
def buildRowAux (prev : Char) (rest : List Char) (row : Nat) : String :=
  match rest with
  | [] => ""
  | c :: cs =>
    (if c ≠ ',' ∧ prev ≠ ',' then gapStr else "") ++
    expand_scaled_row (patternFor c row) ++ buildRowAux c cs row

/-- One logical row of the ASCII rendering of a character list
(src/main.rs:208-222). -/
def buildRow (chars : List Char) (row : Nat) : String :=
  match chars with
  | [] => ""
  | c :: cs => expand_scaled_row (patternFor c row) ++ buildRowAux c cs row

/-- Translation of `ascii_art_number` (src/main.rs:204-228): each of the
`DIGIT_HEIGHT` logical rows of the comma-grouped number is built and pushed
`SCALE_Y` times. -/
def ascii_art_number (value : Nat) : List String :=
  (List.range DIGIT_HEIGHT).flatMap (fun row =>
    List.replicate SCALE_Y (buildRow (format_with_commas value).data row))

/-- The unscaled width of the glyph `ascii_art_number` selects for a
character: 5 for digits, 3 for the comma, 5 for anything else. -/
def glyphWidth (c : Char) : Nat :=
  if 48 ≤ c.toNat ∧ c.toNat ≤ 57 then 5
  else if c = ',' then 3
  else 5

/-- The number of adjacent character pairs that receive a gap: those where
neither neighbour is ','. -/
def gapCount : List Char → Nat
  | [] => 0
  | [_] => 0
  | a :: b :: rest => (if a ≠ ',' ∧ b ≠ ',' then 1 else 0) + gapCount (b :: rest)

/-! ## The filesystem model and the scanner -/

/-- A filesystem tree as the `walkdir` walker delivers it: regular files
(whose content is `none` when reading fails), directories, and entries the
walker reports as traversal errors (`Err(_)` items, covering an
inaccessible directory or file metadata failure). -/
inductive FSNode where
  | file (name : String) (content : Option (List Nat))
  | dir (name : String) (children : List FSNode)
  | errEntry (name : String)
deriving Repr

/-- The name of a node (its final path component). -/
def FSNode.name : FSNode → String
  | .file n _ => n
  | .dir n _ => n
  | .errEntry n => n

/-- `count_lines(entry.path()).unwrap_or(0)` (src/main.rs:309): a file whose
bytes cannot be read contributes zero lines. -/
def readCount : Option (List Nat) → Nat
  | some buf => count_lines buf
  | none => 0

/-- Componentwise sum of (lines, files) totals. -/
def addP (a b : Nat × Nat) : Nat × Nat := (a.1 + b.1, a.2 + b.2)

mutual
/-- The (lines, files) contribution of one walker entry rooted at path `p`
(its own full component path), following `scan_directory`'s loop
(src/main.rs:299-311): `filter_entry(|entry| !is_ignored(entry.path()))`
prunes an ignored entry together with its whole subtree; an `Err` entry is
skipped; a non-ignored regular file passing `is_code_file` adds 1 file and
its `count_lines` result. -/
def scanEntry (p : List String) : FSNode → Nat × Nat
  | .file name content =>
    if is_ignored p then (0, 0)
    else if is_code_file name then (readCount content, 1)
    else (0, 0)
  | .dir _ children =>
    if is_ignored p then (0, 0) else scanChildren p children
  | .errEntry _ => (0, 0)

/-- Total contribution of the children of a directory at path `p`. -/
def scanChildren (p : List String) : List FSNode → Nat × Nat
  | [] => (0, 0)
  | c :: cs => addP (scanEntry (p ++ [FSNode.name c]) c) (scanChildren p cs)
end

/-- The `ScanResult` struct (src/main.rs:55-61); `scanned_at` is wall-clock
environment data and is omitted from the model. -/
structure ScanResult where
  lines : Nat
  files : Nat
  dir : List String
deriving Repr

/-- Translation of `scan_directory` (src/main.rs:295-319): walk the tree
rooted at `dir`, skipping errored entries and pruned subtrees, and always
return `Ok` with the aggregated totals and the root path. -/
def scan_directory (dir : List String) (root : FSNode) : Except Unit ScanResult :=
  let r := scanEntry dir root
  Except.ok { lines := r.1, files := r.2, dir := dir }

/-- The `App` state the controller owns (src/main.rs:80-83); the `Instant`
field is environment data and is omitted. -/
structure App where
  scan : ScanResult

/-- `App::new` (src/main.rs:86-92): scan the current working directory. -/
def App.new (cwd : List String) (root : FSNode) : Except Unit App :=
  (scan_directory cwd root).map (fun s => { scan := s })

/-- `App::refresh` (src/main.rs:110-115): rescan the directory stored in
the current `ScanResult` (against whatever the filesystem now holds) and
replace the stored result wholesale. -/
def App.refresh (app : App) (root : FSNode) : Except Unit App :=
  (scan_directory app.scan.dir root).map (fun s => { scan := s })

/-- A sequence of refreshes, each observing a (possibly different)
filesystem state. -/
def App.refreshSeq (app : App) : List FSNode → Except Unit App
  | [] => Except.ok app
  | r :: rs => (App.refresh app r).bind (fun a => App.refreshSeq a rs)

mutual
/-- All files of a tree whose root sits at path `p`, with their full
component paths, names and contents. -/
def filesOf (p : List String) : FSNode → List (List String × String × Option (List Nat))
  | .file name content => [(p, name, content)]
  | .dir _ children => filesOfChildren p children
  | .errEntry _ => []

/-- All files under a list of children of a directory at path `p`. -/
def filesOfChildren (p : List String) : List FSNode → List (List String × String × Option (List Nat))
  | [] => []
  | c :: cs => filesOf (p ++ [FSNode.name c]) c ++ filesOfChildren p cs
end

/-- What one reachable file contributes to the totals, per the claims: an
ignored path contributes nothing; otherwise a code file contributes its
line count and one file. -/
def contrib (e : List String × String × Option (List Nat)) : Nat × Nat :=
  if is_ignored e.1 then (0, 0)
  else if is_code_file e.2.1 then (readCount e.2.2, 1)
  else (0, 0)

/-- Sum of per-file contributions. -/
def sumContrib (l : List (List String × String × Option (List Nat))) : Nat × Nat :=
  (l.map contrib).foldr addP (0, 0)

/-! ## Spec-side definitions used to state the claims -/

/-- Follows the spec's words for the duration format (claim C4): nonzero
larger units in descending order, the seconds part always, and the
milliseconds part appended if and only if the sub-second remainder is
non-zero. -/
def format_durationSpec (total_ms : Nat) : String :=
  let days := total_ms / 86400000
  let hours := (total_ms % 86400000) / 3600000
  let minutes := (total_ms % 3600000) / 60000
  let seconds := (total_ms % 60000) / 1000
  let millis := total_ms % 1000
  String.intercalate spaceSep (
    ((if days > 0 then [Nat.repr days ++ "d"] else []) ++
     (if hours > 0 then [Nat.repr hours ++ "h"] else []) ++
     (if minutes > 0 then [Nat.repr minutes ++ "m"] else []) ++
     [Nat.repr seconds ++ "s"]) ++
    (if millis > 0 then [Nat.repr millis ++ "ms"] else []))

/-- Whether a rendered part is a milliseconds part (ends in the two
characters "ms"; the day/hour/minute/second parts end in a digit followed
by a single unit letter, so only the milliseconds part satisfies this). -/
def endsWithMs (s : String) : Bool := s.data.reverse.take 2 == ['s', 'm']

/-- Whether the formatted duration contains a milliseconds part. -/
def hasMillisPart (t : Nat) : Bool := (duration_parts t).any endsWithMs

/-- Follows the spec's words for thousands grouping (claim C7), stated on
the reversed digit list: starting from the least significant digit, take
three digits, then a comma, and repeat. -/
def groupRev (l : List Char) : List Char :=
  if l.length ≤ 3 then l
  else l.take 3 ++ ',' :: groupRev (l.drop 3)
termination_by l.length
decreasing_by simp; omega

/-! ## Helper lemmas -/

theorem commaRevAux_zero_eq_groupRev (l : List Char) : commaRevAux l 0 = groupRev l := by
  induction l using groupRev.induct with
  | case1 l hlen =>
    rcases l with _ | ⟨a, _ | ⟨b, _ | ⟨c, _ | ⟨d, rest⟩⟩⟩⟩ <;> simp_all [commaRevAux, groupRev]
  | case2 l hlen ih =>
    rcases l with _ | ⟨a, l⟩
    · exact absurd (by simp) hlen
    rcases l with _ | ⟨b, l⟩
    · exact absurd (by simp) hlen
    rcases l with _ | ⟨c, l⟩
    · exact absurd (by simp) hlen
    rcases l with _ | ⟨d, rest⟩
    · exact absurd (by simp) hlen
    have hstep : commaRevAux (d :: rest) 0 = d :: commaRevAux rest 1 := by
      simp [commaRevAux]
    have ih' := ih
    rw [show (a::b::c::d::rest).drop 3 = d :: rest from rfl, hstep] at ih'
    have hcond : ¬ ((a::b::c::d::rest).length ≤ 3) := hlen
    rw [groupRev.eq_def, if_neg hcond]
    simp [commaRevAux, ← ih']

theorem filter_groupRev (l : List Char) (hl : ∀ c ∈ l, c ≠ ',') :
    (groupRev l).filter (fun c => c ≠ ',') = l := by
  induction l using groupRev.induct with
  | case1 l hlen =>
    rw [groupRev.eq_def, if_pos hlen]
    exact List.filter_eq_self.2 (fun c hc => by simpa using hl c hc)
  | case2 l hlen ih =>
    rw [groupRev.eq_def, if_neg hlen]
    have h1 : (l.take 3).filter (fun c => decide (c ≠ ',')) = l.take 3 :=
      List.filter_eq_self.2 (fun c hc => by simpa using hl c (List.mem_of_mem_take hc))
    have h2 : (groupRev (l.drop 3)).filter (fun c => decide (c ≠ ',')) = l.drop 3 :=
      ih (fun c hc => hl c (List.mem_of_mem_drop hc))
    simp only [decide_not] at h1 h2
    simp [List.filter_append, List.filter_cons, h1, h2]

theorem groupRev_ne_nil (l : List Char) (h : l ≠ []) : groupRev l ≠ [] := by
  rw [groupRev.eq_def]
  split
  · exact h
  · simp

theorem head?_groupRev (l : List Char) : (groupRev l).head? = l.head? := by
  rw [groupRev.eq_def]
  split
  · rfl
  · rename_i hlen
    rcases l with _ | ⟨a, rest⟩
    · simp at hlen
    · simp [List.head?_append]

theorem getLast?_groupRev (l : List Char) : (groupRev l).getLast? = l.getLast? := by
  induction l using groupRev.induct with
  | case1 l hlen => rw [groupRev.eq_def, if_pos hlen]
  | case2 l hlen ih =>
    have hdrop : l.drop 3 ≠ [] := by
      intro hd
      have := congrArg List.length hd
      simp at this
      omega
    rw [groupRev.eq_def, if_neg hlen]
    rw [List.getLast?_append]
    have h2 : (',' :: groupRev (l.drop 3)).getLast? = (groupRev (l.drop 3)).getLast? := by
      rw [List.getLast?_cons]
      rcases hgr : groupRev (l.drop 3) with _ | ⟨x, xs⟩
      · exact absurd hgr (groupRev_ne_nil _ hdrop)
      · simp [List.getLast?_cons]
    rw [h2, ih]
    have h3 : l.getLast? = (l.drop 3).getLast? := by
      conv_lhs => rw [← List.take_append_drop 3 l]
      rw [List.getLast?_append]
      rcases hgl : (l.drop 3).getLast? with _ | x
      · exact absurd (List.getLast?_eq_none_iff.1 hgl) hdrop
      · rfl
    rw [h3]
    rcases hgl : (l.drop 3).getLast? with _ | x
    · exact absurd (List.getLast?_eq_none_iff.1 hgl) hdrop
    · rfl

theorem digitChar_ne_comma (n : Nat) : Nat.digitChar n ≠ ',' := by
  by_cases h16 : n < 16
  · have hb : ∀ m, m < 16 → Nat.digitChar m ≠ ',' := by decide
    exact hb n h16
  · rw [Nat.digitChar.eq_def]
    repeat rw [if_neg (by omega)]
    decide

theorem toDigitsCore_no_comma (b : Nat) (f : Nat) : ∀ (n : Nat) (ds : List Char),
    (∀ c ∈ ds, c ≠ ',') → ∀ c ∈ Nat.toDigitsCore b f n ds, c ≠ ',' := by
  induction f with
  | zero => intro n ds hds; simpa [Nat.toDigitsCore] using hds
  | succ f ih =>
    intro n ds hds c hc
    rw [Nat.toDigitsCore] at hc
    split at hc
    · rcases List.mem_cons.1 hc with hc | hc
      · exact hc ▸ digitChar_ne_comma _
      · exact hds c hc
    · refine ih _ _ ?_ c hc
      intro x hx
      rcases List.mem_cons.1 hx with hx | hx
      · exact hx ▸ digitChar_ne_comma _
      · exact hds x hx

theorem repr_no_comma (n : Nat) : ∀ c ∈ (Nat.repr n).data, c ≠ ',' := by
  intro c hc
  have hdata : (Nat.repr n).data = Nat.toDigits 10 n := rfl
  rw [hdata, Nat.toDigits] at hc
  exact toDigitsCore_no_comma 10 (n + 1) n [] (by simp) c hc

theorem format_with_commas_data (v : Nat) :
    (format_with_commas v).data = (groupRev (Nat.repr v).data.reverse).reverse := by
  show (commaRevAux (Nat.repr v).data.reverse 0).reverse = _
  rw [commaRevAux_zero_eq_groupRev]

theorem length_expand_scaled_row (s : String) :
    (expand_scaled_row s).length = SCALE_X * s.length := by
  show (s.data.flatMap _).length = SCALE_X * s.data.length
  induction s.data with
  | nil => rfl
  | cons c cs ih =>
    simp only [List.flatMap_cons, List.length_append, ih]
    by_cases hc : c = blockChar <;> simp [hc, SCALE_X, List.length_cons] <;> ring

theorem length_patternFor (c : Char) (row : Nat) (h : row < DIGIT_HEIGHT) :
    (patternFor c row).length = glyphWidth c := by
  have hdig : ∀ i, i < 10 → ∀ r, r < 5 →
      ((DIGITS.getD i []).getD r blankPattern).length = 5 := by decide
  have hcom : ∀ r, r < 5 → (COMMA.getD r blankPattern).length = 3 := by decide
  unfold patternFor glyphWidth
  split
  · rename_i hd
    exact hdig (c.toNat - 48) (by omega) row (by simpa [DIGIT_HEIGHT] using h)
  · split
    · rename_i hc
      exact hcom row (by simpa [DIGIT_HEIGHT] using h)
    · decide

theorem length_buildRowAux (rest : List Char) (prev : Char) (row : Nat)
    (h : row < DIGIT_HEIGHT) :
    (buildRowAux prev rest row).length =
      SCALE_X * (rest.map glyphWidth).sum + 2 * gapCount (prev :: rest) := by
  induction rest generalizing prev with
  | nil => simp [buildRowAux, gapCount]
  | cons c cs ih =>
    show ((if c ≠ ',' ∧ prev ≠ ',' then gapStr else "") ++
      expand_scaled_row (patternFor c row) ++ buildRowAux c cs row).length = _
    rw [String.length_append, String.length_append, length_expand_scaled_row,
      length_patternFor c row h, ih c]
    have hgap : gapCount (prev :: c :: cs) =
        (if prev ≠ ',' ∧ c ≠ ',' then 1 else 0) + gapCount (c :: cs) := rfl
    have hg2 : gapStr.length = 2 := rfl
    rw [hgap]
    by_cases hp : prev = ',' <;> by_cases hc : c = ',' <;>
      simp [hp, hc, hg2, SCALE_X] <;> ring

theorem length_buildRow (chars : List Char) (row : Nat) (h : row < DIGIT_HEIGHT) :
    (buildRow chars row).length =
      SCALE_X * (chars.map glyphWidth).sum + 2 * gapCount chars := by
  cases chars with
  | nil => simp [buildRow, gapCount]
  | cons c cs =>
    show (expand_scaled_row (patternFor c row) ++ buildRowAux c cs row).length = _
    rw [String.length_append, length_expand_scaled_row, length_patternFor c row h,
      length_buildRowAux cs c row h]
    simp [SCALE_X]
    ring

theorem addP_zero_left (x : Nat × Nat) : addP (0, 0) x = x := by simp [addP]

theorem addP_assoc (a b c : Nat × Nat) : addP (addP a b) c = addP a (addP b c) := by
  simp [addP, Nat.add_assoc]

theorem sumContrib_cons (e : List String × String × Option (List Nat))
    (l : List (List String × String × Option (List Nat))) :
    sumContrib (e :: l) = addP (contrib e) (sumContrib l) := rfl

theorem sumContrib_append (a b : List (List String × String × Option (List Nat))) :
    sumContrib (a ++ b) = addP (sumContrib a) (sumContrib b) := by
  induction a with
  | nil => exact (addP_zero_left (sumContrib b)).symm
  | cons e es ih => rw [List.cons_append, sumContrib_cons, sumContrib_cons, ih, addP_assoc]

theorem sumContrib_zero (l : List (List String × String × Option (List Nat)))
    (h : ∀ e ∈ l, contrib e = (0, 0)) : sumContrib l = (0, 0) := by
  induction l with
  | nil => rfl
  | cons e es ih =>
    rw [sumContrib_cons, h e (List.mem_cons_self e es),
      ih (fun x hx => h x (List.mem_cons_of_mem e hx))]
    rfl

theorem is_ignored_append (p q : List String) :
    is_ignored (p ++ q) = (is_ignored p || is_ignored q) := by
  simp [is_ignored, List.any_append]

theorem filesOf_path_extends :
    ∀ (p : List String) (t : FSNode), ∀ e ∈ filesOf p t, ∃ q, e.1 = p ++ q :=
  filesOf.induct
    (fun p t => ∀ e ∈ filesOf p t, ∃ q, e.1 = p ++ q)
    (fun p l => ∀ e ∈ filesOfChildren p l, ∃ q, e.1 = p ++ q)
    (by intro p name content e he
        simp [filesOf] at he
        exact ⟨[], by simp [he]⟩)
    (by intro p name children ih e he
        exact ih e (by simpa [filesOf] using he))
    (by intro p name e he
        simp [filesOf] at he)
    (by intro p e he
        simp [filesOfChildren] at he)
    (by intro p c cs ih1 ih2 e he
        rw [filesOfChildren] at he
        rcases List.mem_append.1 he with h | h
        · obtain ⟨q, hq⟩ := ih1 e h
          exact ⟨FSNode.name c :: q, by simp [hq]⟩
        · exact ih2 e h)

theorem filesOfChildren_path_extends (p : List String) (l : List FSNode) :
    ∀ e ∈ filesOfChildren p l, ∃ q, e.1 = p ++ q := by
  induction l with
  | nil => intro e he; simp [filesOfChildren] at he
  | cons c cs ih =>
    intro e he
    rw [filesOfChildren] at he
    rcases List.mem_append.1 he with h | h
    · obtain ⟨q, hq⟩ := filesOf_path_extends (p ++ [FSNode.name c]) c e h
      exact ⟨FSNode.name c :: q, by simp [hq]⟩
    · exact ih e h

theorem contrib_of_ignored (e : List String × String × Option (List Nat))
    (h : is_ignored e.1 = true) : contrib e = (0, 0) := by
  simp [contrib, h]

theorem scanEntry_eq_sumContrib :
    ∀ (p : List String) (t : FSNode), scanEntry p t = sumContrib (filesOf p t) :=
  scanEntry.induct
    (fun p t => scanEntry p t = sumContrib (filesOf p t))
    (fun p l => scanChildren p l = sumContrib (filesOfChildren p l))
    (by intro p name content hig
        simp [scanEntry, filesOf, hig, sumContrib_cons, contrib, sumContrib, addP])
    (by intro p name content hig hcode
        simp [scanEntry, filesOf, hig, hcode, sumContrib_cons, contrib, sumContrib, addP])
    (by intro p name content hig hcode
        simp [scanEntry, filesOf, hig, hcode, sumContrib_cons, contrib, sumContrib, addP])
    (by intro p name children hig
        rw [scanEntry, if_pos hig, filesOf]
        refine (sumContrib_zero _ ?_).symm
        intro e he
        obtain ⟨q, hq⟩ := filesOfChildren_path_extends p children e he
        exact contrib_of_ignored e (by rw [hq, is_ignored_append, hig, Bool.true_or]))
    (by intro p name children hig ih
        rw [scanEntry, if_neg (by simp [hig]), filesOf]
        exact ih)
    (by intro p name
        rfl)
    (by intro p
        rfl)
    (by intro p c cs ih1 ih2
        rw [scanChildren, filesOfChildren, sumContrib_append, ih1, ih2])

theorem scanChildren_eq_sumContrib (p : List String) (l : List FSNode) :
    scanChildren p l = sumContrib (filesOfChildren p l) := by
  induction l with
  | nil => rfl
  | cons c cs ih =>
    rw [scanChildren, filesOfChildren, sumContrib_append, ih, scanEntry_eq_sumContrib]

theorem scan_directory_eq (dir : List String) (root : FSNode) :
    scan_directory dir root =
      Except.ok { lines := (scanEntry dir root).1, files := (scanEntry dir root).2, dir := dir } := rfl

theorem refresh_dir_eq (app a : App) (root : FSNode)
    (h : App.refresh app root = Except.ok a) : a.scan.dir = app.scan.dir := by
  have hr : App.refresh app root = Except.ok
      { scan := { lines := (scanEntry app.scan.dir root).1,
                  files := (scanEntry app.scan.dir root).2, dir := app.scan.dir } } := rfl
  rw [hr] at h
  cases h
  rfl

theorem refreshSeq_dir_eq (roots : List FSNode) : ∀ (app a : App),
    App.refreshSeq app roots = Except.ok a → a.scan.dir = app.scan.dir := by
  induction roots with
  | nil =>
    intro app a h
    rw [App.refreshSeq] at h
    cases h
    rfl
  | cons r rs ih =>
    intro app a h
    rw [App.refreshSeq] at h
    have hr : App.refresh app r = Except.ok
        { scan := { lines := (scanEntry app.scan.dir r).1,
                    files := (scanEntry app.scan.dir r).2, dir := app.scan.dir } } := rfl
    rw [hr] at h
    have h2 := ih _ _ h
    simpa using h2

/-! ## The claims -/

/-- C1: for every file, empty byte content counts 0 lines; non-empty
content counts the number of newline bytes, plus one exactly when the
final byte is not a newline. -/
theorem claim_count_lines (buf : List Nat) :
    (buf = [] → count_lines buf = 0) ∧
    (buf ≠ [] → buf.getLastD 0 = newlineByte → count_lines buf = newlines buf) ∧
    (buf ≠ [] → buf.getLastD 0 ≠ newlineByte → count_lines buf = newlines buf + 1) := by
  refine ⟨fun h => by simp [count_lines, h], fun h hl => ?_, fun h hl => ?_⟩
  · rw [List.getLastD_eq_getLast?] at hl
    simp [count_lines, newlines, h, hl]
  · rw [List.getLastD_eq_getLast?] at hl
    simp [count_lines, newlines, h, hl]

theorem claim_count_lines_w :
    count_lines [104, 10, 104] = newlines [104, 10, 104] + 1 ∧
    count_lines [104, 10] = newlines [104, 10] ∧
    count_lines [] = 0 :=
  ⟨(claim_count_lines [104, 10, 104]).2.2 (by decide) (by decide),
   (claim_count_lines [104, 10]).2.1 (by decide) (by decide),
   (claim_count_lines []).1 rfl⟩

/-- C2: the ignore predicate holds iff some path component is exactly
".git", "target" or "node_modules"; the scan equals the sum of per-file
contributions in which a file whose full path is ignored contributes
nothing; and the spec's example a/.git/x/y.rs is never counted. -/
theorem claim_ignore_prune :
    (∀ p, is_ignored p = true ↔
      ∃ c ∈ p, c = ".git" ∨ c = "target" ∨ c = "node_modules") ∧
    (∀ p t, scanEntry p t = sumContrib (filesOf p t)) ∧
    (∀ e : List String × String × Option (List Nat),
      is_ignored e.1 = true → contrib e = (0, 0)) ∧
    scanEntry [r"a"]
      (FSNode.dir (r"a") [FSNode.dir (r".git")
        [FSNode.dir (r"x") [FSNode.file (r"y.rs") (some [104, 10])]]]) = (0, 0) := by
  refine ⟨fun p => ?_, scanEntry_eq_sumContrib, contrib_of_ignored, by decide⟩
  simp [is_ignored, or_assoc]

theorem claim_ignore_prune_w :
    contrib ([r"a", r".git"], r"y.rs", some [104, 10]) = (0, 0) :=
  claim_ignore_prune.2.2.1 ([r"a", r".git"], r"y.rs", some [104, 10]) (by decide)

/-- C3: the scan never fails: it always returns an `ok` result; an empty
directory yields zero totals; a root the walker cannot access (a single
errored entry) also yields zero totals; and an errored entry in a
directory listing is skipped without affecting the rest of the scan. -/
theorem claim_scan_total :
    (∀ dir root, ∃ res, scan_directory dir root = Except.ok res) ∧
    (∀ dir name, scan_directory dir (FSNode.dir name []) =
      Except.ok { lines := 0, files := 0, dir := dir }) ∧
    (∀ dir name, scan_directory dir (FSNode.errEntry name) =
      Except.ok { lines := 0, files := 0, dir := dir }) ∧
    (∀ p name rest, scanChildren p (FSNode.errEntry name :: rest) = scanChildren p rest) := by
  refine ⟨fun dir root => ⟨_, scan_directory_eq dir root⟩, fun dir name => ?_, fun dir name => ?_,
    fun p name rest => ?_⟩
  · rw [scan_directory_eq]
    have : scanEntry dir (FSNode.dir name []) = (0, 0) := by
      cases h : is_ignored dir <;> simp [scanEntry, scanChildren, h]
    rw [this]
  · rw [scan_directory_eq]
    rfl
  · rw [scanChildren]
    show addP (scanEntry (p ++ [FSNode.name (FSNode.errEntry name)]) (FSNode.errEntry name)) _ = _
    rw [show scanEntry (p ++ [FSNode.name (FSNode.errEntry name)]) (FSNode.errEntry name) = (0, 0)
      from rfl, addP_zero_left]

/-- C4: `format_duration` agrees everywhere with the spec's rule (nonzero
larger units in descending order, seconds always, milliseconds iff the
sub-second remainder is nonzero), and produces the four example strings. -/
theorem claim_format_duration :
    (∀ t, format_duration t = format_durationSpec t) ∧
    format_duration 0 = "0s" ∧ format_duration 1500 = "1s 500ms" ∧
    format_duration 90000 = "1m 30s" ∧ format_duration 3661000 = "1h 1m 1s" := by
  refine ⟨fun t => ?_, by decide, by decide, by decide, by decide⟩
  simp [format_duration, duration_parts, format_durationSpec]

/-- C5 counterexample: the span of 0 ms is strictly under one second, yet
its rendering "0s" contains no milliseconds part, refuting the claim that
every span under one second includes one. -/
theorem claim_subsecond_ms_cex :
    0 < 1000 ∧ format_duration 0 = "0s" ∧ hasMillisPart 0 = false := by decide

/-- C5 (amended): for every non-zero span strictly under one second, the
output of `format_duration` includes a milliseconds part. -/
theorem claim_subsecond_ms (t : Nat) (h0 : 0 < t) (h1 : t < 1000) :
    hasMillisPart t = true ∧ format_duration t = "0s " ++ Nat.repr t ++ "ms" := by
  have hparts : duration_parts t = ["0s", Nat.repr t ++ "ms"] := by
    have hd : t / 86400000 = 0 := by omega
    have h86 : t % 86400000 = t := by omega
    have h36 : t / 3600000 = 0 := by omega
    have hm36 : t % 3600000 = t := by omega
    have h60 : t / 60000 = 0 := by omega
    have hm60 : t % 60000 = t := by omega
    have h1000 : t / 1000 = 0 := by omega
    have hmm : t % 1000 = t := by omega
    simp [duration_parts, hd, h86, h36, hm36, h60, hm60, h1000, hmm, h0]
    decide
  constructor
  · simp [hasMillisPart, hparts, List.any_eq_true]
    exact Or.inr (by simp [endsWithMs, String.data_append])
  · simp [format_duration, hparts, String.intercalate]
    rfl

theorem claim_subsecond_ms_w :
    hasMillisPart 500 = true ∧ format_duration 500 = "0s " ++ Nat.repr 500 ++ "ms" :=
  claim_subsecond_ms 500 (by decide) (by decide)

/-- C6: a path is classified as code iff its extension, lowercased, is in
the extension table; a path with no extension is never code; and the
classification is case-insensitive on the spec's example pair. -/
theorem claim_extension_classifier :
    (∀ name, is_code_file name = true ↔
      ∃ e, rustExtension name = some e ∧ lowerStr e ∈ CODE_EXTENSIONS) ∧
    (∀ name, rustExtension name = none → is_code_file name = false) ∧
    is_code_file (r"Main.RS") = is_code_file (r"main.rs") ∧
    is_code_file (r"Main.RS") = true := by
  refine ⟨fun name => ?_, fun name h => by simp [is_code_file, h], by decide, by decide⟩
  unfold is_code_file
  cases hre : rustExtension name with
  | none => simp
  | some e => simp [List.any_eq_true]

theorem claim_extension_classifier_w : is_code_file (r"README") = false :=
  claim_extension_classifier.2.1 (r"README") (by decide)

/-- C7: the comma-grouped rendering equals the spec's grouping of the
decimal digits in threes from the right; removing the commas recovers
exactly the decimal digit string; the first and last characters are the
first and last digits (no leading or trailing comma); and 1234 and 0
render as the examples say. -/
theorem claim_format_with_commas :
    (∀ v, (format_with_commas v).data = (groupRev (Nat.repr v).data.reverse).reverse) ∧
    (∀ v, (format_with_commas v).data.filter (fun c => c ≠ ',') = (Nat.repr v).data) ∧
    (∀ v, (format_with_commas v).data.head? = (Nat.repr v).data.head? ∧
      (format_with_commas v).data.getLast? = (Nat.repr v).data.getLast?) ∧
    format_with_commas 1234 = "1,234" ∧ format_with_commas 0 = "0" := by
  refine ⟨format_with_commas_data, fun v => ?_, fun v => ⟨?_, ?_⟩, by decide, by decide⟩
  · rw [format_with_commas_data, List.filter_reverse,
      filter_groupRev _ (fun c hc => repr_no_comma v c (List.mem_reverse.1 hc)),
      List.reverse_reverse]
  · rw [format_with_commas_data, List.head?_reverse, getLast?_groupRev, List.getLast?_reverse]
  · rw [format_with_commas_data, List.getLast?_reverse, head?_groupRev, List.head?_reverse]

/-- C8: every glyph cell is scaled to `SCALE_X` output cells; each rendered
row's width is the scaled glyph widths plus one two-space gap for exactly
those adjacent pairs in which neither neighbour is the comma (so the comma
sits flush on both sides); and on the example 1234 every output line of
the ASCII block has the resulting width 96. -/
theorem claim_ascii_gaps :
    (∀ s, (expand_scaled_row s).length = SCALE_X * s.length) ∧
    (∀ chars row, row < DIGIT_HEIGHT →
      (buildRow chars row).length = SCALE_X * (chars.map glyphWidth).sum + 2 * gapCount chars) ∧
    (ascii_art_number 1234).all (fun r => r.length == 96) = true ∧
    (buildRow (['1', ',', '2']) 0).length = 52 ∧
    (buildRow (['1', '2']) 0).length = 42 := by
  exact ⟨length_expand_scaled_row, fun chars row h => length_buildRow chars row h,
    by decide, by decide, by decide⟩

theorem claim_ascii_gaps_w :
    (buildRow ([',', '7']) 1).length =
      SCALE_X * (([',', '7']).map glyphWidth).sum + 2 * gapCount ([',', '7']) :=
  claim_ascii_gaps.2.1 [',', '7'] 1 (by decide)

/-- C9: the scan result always records exactly the directory it was asked
to scan; `App::new` stores the startup working directory; one refresh
rescans the stored directory and preserves the stored `dir`; hence any
sequence of refreshes leaves the scan root identical. -/
theorem claim_scan_root_fixed :
    (∀ dir root, scan_directory dir root =
      Except.ok { lines := (scanEntry dir root).1, files := (scanEntry dir root).2, dir := dir }) ∧
    (∀ cwd root app, App.new cwd root = Except.ok app → app.scan.dir = cwd) ∧
    (∀ app root a, App.refresh app root = Except.ok a → a.scan.dir = app.scan.dir) ∧
    (∀ app roots a, App.refreshSeq app roots = Except.ok a → a.scan.dir = app.scan.dir) := by
  refine ⟨scan_directory_eq, fun cwd root app h => ?_, fun app root a h => refresh_dir_eq app a root h,
    fun app roots a h => refreshSeq_dir_eq roots app a h⟩
  have hn : App.new cwd root = Except.ok
      { scan := { lines := (scanEntry cwd root).1, files := (scanEntry cwd root).2, dir := cwd } } := rfl
  rw [hn] at h
  cases h
  rfl

theorem claim_scan_root_fixed_w :
    (App.mk (ScanResult.mk 1 1 [r"w"])).scan.dir = (App.mk (ScanResult.mk 0 0 [r"w"])).scan.dir :=
  claim_scan_root_fixed.2.2.2 (App.mk (ScanResult.mk 0 0 [r"w"]))
    [FSNode.file (r"x.rs") (some [104])] (App.mk (ScanResult.mk 1 1 [r"w"])) rfl

/-- C10: a reachable, non-ignored code file whose bytes cannot be read is
still counted: it contributes exactly one to the file count and zero to
the line total, both as a single entry and inside a directory listing. -/
theorem claim_unreadable_file_counted :
    (∀ p name, is_ignored p = false → is_code_file name = true →
      scanEntry p (FSNode.file name none) = (0, 1)) ∧
    (∀ p name cs, is_ignored (p ++ [name]) = false → is_code_file name = true →
      scanChildren p (FSNode.file name none :: cs) = addP (0, 1) (scanChildren p cs)) := by
  constructor
  · intro p name hig hcode
    simp [scanEntry, hig, hcode, readCount]
  · intro p name cs hig hcode
    rw [scanChildren]
    show addP (scanEntry (p ++ [name]) (FSNode.file name none)) _ = _
    rw [show scanEntry (p ++ [name]) (FSNode.file name none) = (0, 1) by
      simp [scanEntry, hig, hcode, readCount]]

theorem claim_unreadable_file_counted_w :
    scanChildren [] [FSNode.file (r"a.rs") none] = addP (0, 1) (scanChildren [] []) :=
  claim_unreadable_file_counted.2 [] (r"a.rs") [] (by decide) (by decide)

end CodeCounter
